import Mathlib

/-!
Shallow embedding of the keyword-overlap matching core of the
Bridging-the-Gap platform (`src/app.py`): the text tokenizer
`tokenize_and_weight`, the scorer `score_resume_against_job`, and the
best-effort document text extractors `extract_text_from_pdf`,
`extract_text_from_docx`, `extract_text_from_txt`, `extract_text`.

Python strings are modelled as Lean `String` (working over `String.data`,
i.e. lists of characters); `Counter`/`dict` values, which preserve
insertion order, are modelled as association lists `List (String × Nat)`
whose entries appear in first-encounter order; the floating-point score
`overlap / total_job` is modelled as the exact rational; the process-wide
`STOPWORDS` set is passed explicitly as a list parameter (the spec itself
directs that the stopword set be passed by reference into the scorer).
-/

namespace App

/-- Characters kept (other than whitespace) by the substitution
`re.sub(r"[^a-z0-9\s\-+#]", " ", text)` at line 118 of `app.py`:
lowercase ASCII letters `a`-`z` (97-122), digits `0`-`9` (48-57),
hyphen (45), plus (43), hash (35), stated over character codes. -/
def isKeptChar (c : Char) : Bool :=
  (97 ≤ c.toNat && c.toNat ≤ 122) || (48 ≤ c.toNat && c.toNat ≤ 57) ||
    c.toNat = 45 || c.toNat = 43 || c.toNat = 35

/-- ASCII whitespace as matched by the regex class `\s` and split on by
`str.split()`: space (32), tab (9), newline (10), carriage return (13),
vertical tab (11), form feed (12). -/
def isSpaceChar (c : Char) : Bool :=
  c.toNat = 32 || c.toNat = 9 || c.toNat = 10 || c.toNat = 13 ||
    c.toNat = 11 || c.toNat = 12

/-- One character of `text.lower()` followed by the regex substitution:
lowercase the character, keep it when it is in the allowed class or is
whitespace, and replace every other character by a space. -/
def normChar (c : Char) : Char :=
  let c := c.toLower
  if isKeptChar c || isSpaceChar c then c else ' '

/-- Lines 117 and 118 of `app.py`: `text.lower()` then
`re.sub(r"[^a-z0-9\s\-+#]", " ", text)`, applied characterwise. -/
def normalize (cs : List Char) : List Char :=
  cs.map normChar

/-- Helper for `splitChunks`: accumulates the current (reversed) chunk. -/
def splitAux : List Char → List Char → List (List Char)
  | [], acc => [acc.reverse]
  | c :: cs, acc =>
    if isSpaceChar c then acc.reverse :: splitAux cs []
    else splitAux cs (c :: acc)

/-- Split a character list at whitespace, keeping empty chunks.
`str.split()` (no separator) equals this followed by dropping the empty
chunks, which the `if t` filter of the list comprehension at line 119 does. -/
def splitChunks (cs : List Char) : List (List Char) :=
  splitAux cs []

/-- Line 119 of `app.py`:
`[t for t in text.split() if t and t not in STOPWORDS and len(t) > 1]`,
applied to the normalized text. -/
def tokensOf (sw : List String) (text : String) : List String :=
  ((splitChunks (normalize text.data)).map String.mk).filter
    (fun t => (t != "") && !(sw.contains t) && decide (1 < t.length))

/-- Insert-or-increment for one token: the effect of counting one more
occurrence into a `Counter`, which keeps keys in first-encounter order. -/
def bump (tok : String) : List (String × Nat) → List (String × Nat)
  | [] => [(tok, 1)]
  | (t, n) :: rest => if t = tok then (t, n + 1) :: rest else (t, n) :: bump tok rest

/-- Line 120 of `app.py`: `cnt = Counter(tokens)`, as an association list in
first-encounter key order. -/
def countTokens (ts : List String) : List (String × Nat) :=
  ts.foldl (fun acc t => bump t acc) []

/-- Stable insertion for a descending sort by count: the new element goes
after every element with a strictly larger count and before the first
element whose count is less than or equal to its own. -/
def insertDesc (p : String × Nat) : List (String × Nat) → List (String × Nat)
  | [] => [p]
  | q :: rest => if p.2 < q.2 then q :: insertDesc p rest else p :: q :: rest

/-- Stable sort by count, descending, ties in first-encountered order: the
ordering produced by `Counter.most_common(n)` (which is
`heapq.nlargest` = stable descending sort by count). -/
def sortByCountDesc (l : List (String × Nat)) : List (String × Nat) :=
  l.foldr insertDesc []

/-- Lines 110-123 of `app.py`, `tokenize_and_weight(text, top_n=None)`:
lowercase, strip characters outside the allowed class, split, drop
stopwords and length-1 tokens, count; with a truthy `top_n` return
`dict(cnt.most_common(top_n))`, i.e. the first `top_n` entries of the
stable count-descending sort (`heapq.nlargest` yields the empty list for a
negative `top_n`, matching `Int.toNat`); `top_n` equal to `0` or `None` is
falsy, so the full profile is returned. -/
def tokenize_and_weight (sw : List String) (text : String)
    (top_n : Option Int := none) : List (String × Nat) :=
  let cnt := countTokens (tokensOf sw text)
  match top_n with
  | none => cnt
  | some n => if n = 0 then cnt else (sortByCountDesc cnt).take n.toNat

/-- Line 138 of `app.py`: `r_tokens.get(tok, 0)` on an association list. -/
def lookup (m : List (String × Nat)) (tok : String) : Nat :=
  match m.find? (fun p => p.1 = tok) with
  | some p => p.2
  | none => 0

/-- Loop body of lines 137-142 of `app.py`: the accumulator carries the
running `overlap` and the `matched` mapping (a dict built in iteration
order; the keys of the job profile are distinct, so each insertion appends a
fresh key). -/
def matchStep (r_tokens : List (String × Nat)) (acc : Nat × List (String × Nat))
    (p : String × Nat) : Nat × List (String × Nat) :=
  let rcount := lookup r_tokens p.1
  if 0 < rcount then (acc.1 + min rcount p.2, acc.2 ++ [(p.1, min rcount p.2)])
  else acc

/-- Lines 125-146 of `app.py`, `score_resume_against_job`: tokenize both
texts (no truncation), return `(0.0, empty)` when the job profile is empty,
otherwise accumulate `min(rcount, jcount)` over the job profile and divide
by `sum(j_tokens.values()) or 1`.  The float division is modelled as exact
rational division. -/
def score_resume_against_job (sw : List String) (resume_text job_desc : String) :
    ℚ × List (String × Nat) :=
  let r_tokens := tokenize_and_weight sw resume_text
  let j_tokens := tokenize_and_weight sw job_desc
  if j_tokens = [] then (0, [])
  else
    let res := j_tokens.foldl (matchStep r_tokens) (0, [])
    let s := (j_tokens.map Prod.snd).sum
    let total_job := if s = 0 then 1 else s
    ((res.1 : ℚ) / (total_job : ℚ), res.2)

/-- Sum of all job-profile counts, `sum(j_tokens.values())` at line 144. -/
def totalJob (sw : List String) (job_desc : String) : Nat :=
  ((tokenize_and_weight sw job_desc).map Prod.snd).sum

/-- One uploaded document, abstracted by what each external parsing
library call in `app.py` would produce on it:
`pdfParse` is the outcome of `pdfminer.high_level.extract_text` (an
exception, or the extracted text which may be `None`); `docxParagraphs`
is the outcome of `docx.Document(path)` followed by collecting
`para.text` over `doc.paragraphs` (an exception on a malformed file, or
the list of paragraph texts); `txtDecoded` is the text obtained by
`open(path, "r", encoding="utf-8", errors="ignore").read()`, which never
fails on any byte content because invalid sequences are dropped. -/
structure RawDoc where
  pdfParse : Except String (Option String)
  docxParagraphs : Except String (List String)
  txtDecoded : String

/-- Lines 83-89 of `app.py`: the `try`/`except` around the pdfminer call
converts any exception to `""`, and `text or ""` maps a `None` result
to `""`. -/
def extract_text_from_pdf (d : RawDoc) : String :=
  match d.pdfParse with
  | Except.ok t => t.getD ""
  | Except.error _ => ""

/-- Lines 76-81 of `app.py`: `docx.Document(path)` (whose exception, if
any, propagates — there is no `try`/`except` here), then
`"\n".join(full_text)` over the paragraph texts. -/
def extract_text_from_docx (d : RawDoc) : Except String String :=
  match d.docxParagraphs with
  | Except.ok paras => Except.ok (String.intercalate "\n" paras)
  | Except.error e => Except.error e

/-- Lines 91-93 of `app.py`: permissive-decoding read, total. -/
def extract_text_from_txt (d : RawDoc) : String :=
  d.txtDecoded

/-- Lines 95-108 of `app.py`, `extract_text`, dispatching on the declared
format tag (the lowercased filename extension computed at line 96).
The result is `Except`: `Except.error` means a Python exception
propagates out of `extract_text` to its caller. -/
def extract_text (d : RawDoc) (ext : String) : Except String String :=
  if ext = "pdf" then Except.ok (extract_text_from_pdf d)
  else if ext = "docx" ∨ ext = "doc" then
    if ext = "doc" then Except.ok (extract_text_from_txt d)
    else extract_text_from_docx d
  else if ext = "txt" then Except.ok (extract_text_from_txt d)
  else Except.ok ""

/-- The `matched` mapping accumulated by the loop of lines 137-142,
characterized as a `filterMap` over the job profile: exactly the entries
of the job profile whose token has a positive resume count, each mapped to
`min rcount jcount`. -/
def matchedOf (r_tokens j_tokens : List (String × Nat)) : List (String × Nat) :=
  j_tokens.filterMap (fun p =>
    if 0 < lookup r_tokens p.1 then some (p.1, min (lookup r_tokens p.1) p.2)
    else none)

/-- Every entry of `bump tok acc` is an entry of `acc`, or carries the key
`tok` with a positive count. -/
theorem mem_bump {tok : String} {acc : List (String × Nat)} {p : String × Nat}
    (h : p ∈ bump tok acc) : p ∈ acc ∨ (p.1 = tok ∧ 1 ≤ p.2) := by
  induction acc with
  | nil =>
    simp only [bump, List.mem_singleton] at h
    subst h
    exact Or.inr ⟨rfl, le_refl 1⟩
  | cons q rest ih =>
    obtain ⟨t, n⟩ := q
    by_cases ht : t = tok
    · simp only [bump, if_pos ht, List.mem_cons] at h
      rcases h with h | h
      · subst h
        exact Or.inr ⟨ht, Nat.le_add_left 1 n⟩
      · exact Or.inl (List.mem_cons_of_mem _ h)
    · simp only [bump, if_neg ht, List.mem_cons] at h
      rcases h with h | h
      · subst h
        exact Or.inl (List.mem_cons_self _ _)
      · rcases ih h with h' | h'
        · exact Or.inl (List.mem_cons_of_mem _ h')
        · exact Or.inr h'

/-- Invariant of the counting fold: every produced entry is from the
accumulator or keyed by one of the folded tokens, with positive count. -/
theorem mem_foldl_bump {ts : List String} :
    ∀ {acc : List (String × Nat)} {p : String × Nat},
      p ∈ ts.foldl (fun a t => bump t a) acc →
        p ∈ acc ∨ (p.1 ∈ ts ∧ 1 ≤ p.2) := by
  induction ts with
  | nil =>
    intro acc p h
    exact Or.inl h
  | cons t ts ih =>
    intro acc p h
    rw [List.foldl_cons] at h
    rcases ih h with h' | h'
    · rcases mem_bump h' with h'' | h''
      · exact Or.inl h''
      · exact Or.inr ⟨h''.1 ▸ List.mem_cons_self _ _, h''.2⟩
    · exact Or.inr ⟨List.mem_cons_of_mem _ h'.1, h'.2⟩

/-- Every entry of a token-count profile is keyed by one of the counted
tokens and has a positive count. -/
theorem mem_countTokens {ts : List String} {p : String × Nat}
    (h : p ∈ countTokens ts) : p.1 ∈ ts ∧ 1 ≤ p.2 := by
  rcases mem_foldl_bump h with h' | h'
  · exact absurd h' (List.not_mem_nil p)
  · exact h'

/-- Every character of every chunk produced by `splitAux` satisfies any
property that holds of the accumulated characters and of all non-space
input characters. -/
theorem splitAux_chars {P : Char → Prop} :
    ∀ (cs acc : List Char), (∀ c ∈ cs, isSpaceChar c = false → P c) →
      (∀ c ∈ acc, P c) → ∀ w ∈ splitAux cs acc, ∀ c ∈ w, P c := by
  intro cs
  induction cs with
  | nil =>
    intro acc _ hacc w hw c hc
    simp only [splitAux, List.mem_singleton] at hw
    subst hw
    exact hacc c (List.mem_reverse.mp hc)
  | cons c0 cs ih =>
    intro acc hcs hacc w hw c hc
    by_cases hsp : isSpaceChar c0 = true
    · simp only [splitAux, if_pos hsp, List.mem_cons] at hw
      rcases hw with hw | hw
      · subst hw
        exact hacc c (List.mem_reverse.mp hc)
      · exact ih [] (fun c hmem hns => hcs c (List.mem_cons_of_mem _ hmem) hns)
          (by intro c hmem; exact absurd hmem (List.not_mem_nil c)) w hw c hc
    · rw [Bool.not_eq_true] at hsp
      simp only [splitAux, hsp, Bool.false_eq_true, if_false] at hw
      refine ih (c0 :: acc) (fun c hmem hns => hcs c (List.mem_cons_of_mem _ hmem) hns)
        ?_ w hw c hc
      intro c hmem
      rcases List.mem_cons.mp hmem with h | h
      · exact h ▸ hcs c0 (List.mem_cons_self _ _) hsp
      · exact hacc c h

/-- Every token selected at line 119 comes from a chunk of the normalized
text, is not a stopword, and has length greater than one. -/
theorem tokensOf_spec {sw : List String} {text : String} {t : String}
    (h : t ∈ tokensOf sw text) :
    (∃ w ∈ splitChunks (normalize text.data), t = String.mk w) ∧
      t ∉ sw ∧ 1 < t.length := by
  unfold tokensOf at h
  rw [List.mem_filter] at h
  obtain ⟨hmem, hcond⟩ := h
  rw [List.mem_map] at hmem
  obtain ⟨w, hw, hweq⟩ := hmem
  simp only [Bool.and_eq_true, bne_iff_ne, ne_eq, Bool.not_eq_true',
    decide_eq_true_eq, List.contains_eq_any_beq, List.any_eq_false,
    beq_iff_eq] at hcond
  refine ⟨⟨w, hw, hweq.symm⟩, ?_, hcond.2⟩
  intro hmem'
  exact (hcond.1.2 t hmem') rfl

/-- A kept character is not whitespace. -/
theorem kept_not_space {c : Char} (h : isKeptChar c = true) :
    isSpaceChar c = false := by
  simp only [isKeptChar, Bool.or_eq_true, Bool.and_eq_true, decide_eq_true_eq] at h
  simp only [isSpaceChar, Bool.or_eq_false_iff, decide_eq_false_iff_not]
  omega

/-- A kept character is fixed by `Char.toLower` (its code is outside
65-90, the basic latin uppercase range). -/
theorem kept_toLower {c : Char} (h : isKeptChar c = true) :
    c.toLower = c := by
  simp only [isKeptChar, Bool.or_eq_true, Bool.and_eq_true, decide_eq_true_eq] at h
  have hne : ¬(c.toNat ≥ 65 ∧ c.toNat ≤ 90) := by omega
  simp only [Char.toLower]
  rw [if_neg hne]

/-- Every character of the normalized text is kept or whitespace. -/
theorem mem_normalize {cs : List Char} {c : Char} (h : c ∈ normalize cs) :
    isKeptChar c = true ∨ isSpaceChar c = true := by
  unfold normalize at h
  rw [List.mem_map] at h
  obtain ⟨c', _, rfl⟩ := h
  simp only [normChar]
  by_cases hk : (isKeptChar c'.toLower || isSpaceChar c'.toLower) = true
  · rw [if_pos hk]
    exact Bool.or_eq_true_iff.mp hk
  · rw [if_neg hk]
    exact Or.inr (by decide)

/-- Membership in an insertion is membership in the original list or
being the inserted element. -/
theorem mem_insertDesc {p q : String × Nat} {l : List (String × Nat)} :
    q ∈ insertDesc p l ↔ q = p ∨ q ∈ l := by
  induction l with
  | nil => simp [insertDesc]
  | cons r rest ih =>
    by_cases hlt : p.2 < r.2
    · simp only [insertDesc, if_pos hlt, List.mem_cons, ih]
      tauto
    · simp only [insertDesc, if_neg hlt, List.mem_cons]

/-- Insertion produces a permutation of consing. -/
theorem insertDesc_perm (p : String × Nat) (l : List (String × Nat)) :
    (insertDesc p l).Perm (p :: l) := by
  induction l with
  | nil => simp [insertDesc]
  | cons r rest ih =>
    by_cases hlt : p.2 < r.2
    · simp only [insertDesc, if_pos hlt]
      exact (ih.cons r).trans (List.Perm.swap p r rest)
    · simp only [insertDesc, if_neg hlt]
      exact List.Perm.refl _

/-- Insertion preserves sortedness by count, descending. -/
theorem insertDesc_pairwise {p : String × Nat} {l : List (String × Nat)}
    (h : l.Pairwise (fun a b => b.2 ≤ a.2)) :
    (insertDesc p l).Pairwise (fun a b => b.2 ≤ a.2) := by
  induction l with
  | nil => simp [insertDesc]
  | cons r rest ih =>
    rcases List.pairwise_cons.mp h with ⟨hr, hrest⟩
    by_cases hlt : p.2 < r.2
    · simp only [insertDesc, if_pos hlt]
      refine List.pairwise_cons.mpr ⟨?_, ih hrest⟩
      intro q hq
      rcases mem_insertDesc.mp hq with hq | hq
      · exact hq ▸ Nat.le_of_lt hlt
      · exact hr q hq
    · simp only [insertDesc, if_neg hlt]
      refine List.pairwise_cons.mpr ⟨?_, h⟩
      intro q hq
      rcases List.mem_cons.mp hq with hq | hq
      · exact hq ▸ Nat.le_of_not_lt hlt
      · exact Nat.le_trans (hr q hq) (Nat.le_of_not_lt hlt)

/-- Stability of the insertion: restricted to any fixed count, insertion
prepends the new element (which, in the fold, is the earliest remaining
input element) exactly when it has that count. -/
theorem insertDesc_filter (c : Nat) (p : String × Nat) (l : List (String × Nat)) :
    (insertDesc p l).filter (fun q => q.2 == c) =
      if p.2 = c then p :: l.filter (fun q => q.2 == c)
      else l.filter (fun q => q.2 == c) := by
  induction l with
  | nil =>
    by_cases hc : p.2 = c
    · simp [insertDesc, List.filter_cons, hc]
    · simp [insertDesc, List.filter_cons, hc]
  | cons r rest ih =>
    by_cases hlt : p.2 < r.2
    · simp only [insertDesc, if_pos hlt, List.filter_cons]
      by_cases hc : p.2 = c
      · have hrc : ¬ r.2 = c := by omega
        simp [hc, hrc, ih]
      · simp [hc, ih]
    · simp only [insertDesc, if_neg hlt, List.filter_cons]
      by_cases hc : p.2 = c
      · simp [hc]
      · simp [hc]

/-- The stable sort is a permutation of its input. -/
theorem sortByCountDesc_perm (l : List (String × Nat)) :
    (sortByCountDesc l).Perm l := by
  induction l with
  | nil => rfl
  | cons p rest ih =>
    exact (insertDesc_perm p (sortByCountDesc rest)).trans (ih.cons p)

/-- The stable sort is sorted by count, descending. -/
theorem sortByCountDesc_pairwise (l : List (String × Nat)) :
    (sortByCountDesc l).Pairwise (fun a b => b.2 ≤ a.2) := by
  induction l with
  | nil => exact List.Pairwise.nil
  | cons p rest ih => exact insertDesc_pairwise ih

/-- Stability of the sort: the elements of each fixed count keep their
input order (this is how `Counter.most_common` breaks ties, first
encountered first). -/
theorem sortByCountDesc_filter (c : Nat) (l : List (String × Nat)) :
    (sortByCountDesc l).filter (fun q => q.2 == c) =
      l.filter (fun q => q.2 == c) := by
  induction l with
  | nil => rfl
  | cons p rest ih =>
    show (insertDesc p (sortByCountDesc rest)).filter _ = _
    rw [insertDesc_filter, List.filter_cons]
    by_cases hc : p.2 = c
    · rw [if_pos hc, ih, if_pos (by simp [hc])]
    · rw [if_neg hc, ih, if_neg (by simp [hc])]

/-- The matching loop equals a `filterMap` description: starting from any
accumulator, it adds the matched contributions to the running overlap and
appends the matched entries in job-profile order. -/
theorem foldl_matchStep (r : List (String × Nat)) :
    ∀ (j : List (String × Nat)) (acc : Nat × List (String × Nat)),
      j.foldl (matchStep r) acc =
        (acc.1 + ((matchedOf r j).map Prod.snd).sum, acc.2 ++ matchedOf r j) := by
  intro j
  induction j with
  | nil =>
    intro acc
    simp [matchedOf]
  | cons p j ih =>
    intro acc
    rw [List.foldl_cons, ih]
    by_cases hp : 0 < lookup r p.1
    · simp only [matchedOf, List.filterMap_cons, if_pos hp, matchStep]
      simp only [if_pos hp, List.map_cons, List.sum_cons, List.append_assoc,
        List.singleton_append, List.cons_append, List.nil_append]
      exact Prod.ext (by omega) rfl
    · simp only [matchedOf, List.filterMap_cons, if_neg hp, matchStep]

/-- Entries returned by `tokenize_and_weight` for any `top_n` are entries
of the full counted profile. -/
theorem mem_tokenize {sw : List String} {text : String} {top_n : Option Int}
    {p : String × Nat} (h : p ∈ tokenize_and_weight sw text top_n) :
    p ∈ countTokens (tokensOf sw text) := by
  cases top_n with
  | none => exact h
  | some n =>
    simp only [tokenize_and_weight] at h
    by_cases hn : n = 0
    · rw [if_pos hn] at h
      exact h
    · rw [if_neg hn] at h
      exact (sortByCountDesc_perm _).mem_iff.mp (List.mem_of_mem_take h)

/-- A nonempty job profile has total count at least one. -/
theorem totalJob_pos {sw : List String} {J : String}
    (hj : tokenize_and_weight sw J ≠ []) : 1 ≤ totalJob sw J := by
  unfold totalJob
  cases hcase : tokenize_and_weight sw J with
  | nil => exact absurd hcase hj
  | cons p rest =>
    have hp : 1 ≤ p.2 :=
      (mem_countTokens (mem_tokenize (hcase ▸ List.mem_cons_self p rest))).2
    simp only [List.map_cons, List.sum_cons]
    omega

/-- With a nonempty job profile, the scorer returns the matched mapping of
`matchedOf` and the exact ratio of its total contribution to the total job
count. -/
theorem score_eq {sw : List String} {R J : String}
    (hj : tokenize_and_weight sw J ≠ []) :
    score_resume_against_job sw R J =
      (((((matchedOf (tokenize_and_weight sw R) (tokenize_and_weight sw J)).map
            Prod.snd).sum : Nat) : ℚ) / ((totalJob sw J : Nat) : ℚ),
        matchedOf (tokenize_and_weight sw R) (tokenize_and_weight sw J)) := by
  have hs : ¬ ((tokenize_and_weight sw J).map Prod.snd).sum = 0 := by
    have := totalJob_pos hj
    unfold totalJob at this
    omega
  simp only [score_resume_against_job]
  rw [if_neg hj, foldl_matchStep, if_neg hs]
  simp [totalJob]

/-- The total matched contribution never exceeds the total job count,
because each contribution is clamped by `min` to the job count. -/
theorem matched_sum_le (r : List (String × Nat)) :
    ∀ j : List (String × Nat),
      ((matchedOf r j).map Prod.snd).sum ≤ (j.map Prod.snd).sum := by
  intro j
  induction j with
  | nil => simp [matchedOf]
  | cons p j ih =>
    simp only [matchedOf, List.filterMap_cons] at *
    by_cases hp : 0 < lookup r p.1
    · rw [if_pos hp]
      simp only [List.map_cons, List.sum_cons]
      have hmin : min (lookup r p.1) p.2 ≤ p.2 := Nat.min_le_right _ _
      omega
    · rw [if_neg hp]
      simp only [List.map_cons, List.sum_cons]
      omega

/-- Shape of each matched entry: it descends from a job-profile entry
whose token has a positive resume count, with the clamped contribution. -/
theorem mem_matchedOf {r j : List (String × Nat)} {q : String × Nat}
    (h : q ∈ matchedOf r j) :
    ∃ p ∈ j, 0 < lookup r p.1 ∧ q = (p.1, min (lookup r p.1) p.2) := by
  unfold matchedOf at h
  rw [List.mem_filterMap] at h
  obtain ⟨p, hp, hf⟩ := h
  by_cases h0 : 0 < lookup r p.1
  · rw [if_pos h0] at hf
    exact ⟨p, hp, h0, (Option.some_inj.mp hf).symm⟩
  · rw [if_neg h0] at hf
    exact absurd hf (by simp)

/-- Conversely, every job-profile entry with positive resume count
produces its clamped entry in the matched mapping. -/
theorem matchedOf_mem_of {r j : List (String × Nat)} {p : String × Nat}
    (hp : p ∈ j) (h0 : 0 < lookup r p.1) :
    (p.1, min (lookup r p.1) p.2) ∈ matchedOf r j := by
  unfold matchedOf
  rw [List.mem_filterMap]
  exact ⟨p, hp, by rw [if_pos h0]⟩

/-- Under full coverage (every job count at most the resume count) the
matched contributions add up to the whole job total. -/
theorem matched_sum_full (r : List (String × Nat)) :
    ∀ j : List (String × Nat), (∀ p ∈ j, 1 ≤ p.2) →
      (∀ p ∈ j, p.2 ≤ lookup r p.1) →
      ((matchedOf r j).map Prod.snd).sum = (j.map Prod.snd).sum := by
  intro j
  induction j with
  | nil =>
    intro _ _
    simp [matchedOf]
  | cons p j ih =>
    intro hpos hcov
    have hp2 : 1 ≤ p.2 := hpos p (List.mem_cons_self _ _)
    have hle : p.2 ≤ lookup r p.1 := hcov p (List.mem_cons_self _ _)
    have h0 : 0 < lookup r p.1 := lt_of_lt_of_le hp2 hle
    simp only [matchedOf, List.filterMap_cons, if_pos h0] at *
    simp only [List.map_cons, List.sum_cons]
    rw [Nat.min_eq_right hle,
      ih (fun q hq => hpos q (List.mem_cons_of_mem _ hq))
        (fun q hq => hcov q (List.mem_cons_of_mem _ hq))]

/-- The matched mapping is empty exactly when no job-profile token has a
positive resume count. -/
theorem matchedOf_eq_nil_iff {r j : List (String × Nat)} :
    matchedOf r j = [] ↔ ∀ p ∈ j, ¬ 0 < lookup r p.1 := by
  unfold matchedOf
  rw [List.filterMap_eq_nil_iff]
  constructor
  · intro h p hp h0
    have := h p hp
    rw [if_pos h0] at this
    exact absurd this (by simp)
  · intro h p hp
    rw [if_neg (h p hp)]

/-- A sum of positive naturals is zero exactly when the list is empty. -/
theorem natSum_eq_zero_iff {l : List Nat} (hpos : ∀ x ∈ l, 1 ≤ x) :
    l.sum = 0 ↔ l = [] := by
  cases l with
  | nil => simp
  | cons x l =>
    have hx : 1 ≤ x := hpos x (List.mem_cons_self _ _)
    simp only [List.sum_cons]
    constructor
    · intro h
      omega
    · intro h
      exact absurd h (by simp)

/-- C1: for every pair of input texts whose job token profile is
non-empty, `score_resume_against_job` returns `(score, matched)` where
`matched` contains exactly the job-profile tokens with positive resume
count, each mapped to `min(rcount, jcount)`; `totalJob` (the sum of all
job-profile counts) is at least one; and `score` equals the sum of the
matched values divided by `totalJob`, exactly. -/
theorem score_decomposition (sw : List String) (R J : String)
    (hj : tokenize_and_weight sw J ≠ []) :
    (∀ tok c, (tok, c) ∈ (score_resume_against_job sw R J).2 ↔
      ∃ jc, (tok, jc) ∈ tokenize_and_weight sw J ∧
        0 < lookup (tokenize_and_weight sw R) tok ∧
        c = min (lookup (tokenize_and_weight sw R) tok) jc) ∧
    1 ≤ totalJob sw J ∧
    (score_resume_against_job sw R J).1 =
      ((((score_resume_against_job sw R J).2.map Prod.snd).sum : Nat) : ℚ) /
        ((totalJob sw J : Nat) : ℚ) := by
  rw [score_eq hj]
  refine ⟨?_, totalJob_pos hj, rfl⟩
  intro tok c
  constructor
  · intro h
    obtain ⟨p, hp, h0, heq⟩ := mem_matchedOf h
    obtain ⟨h1, h2⟩ := Prod.mk.injEq .. ▸ heq
    refine ⟨p.2, ?_, h1 ▸ h0, by rw [h1]; exact h2⟩
    rw [h1]
    exact hp
  · rintro ⟨jc, hjc, h0, hc⟩
    have := matchedOf_mem_of (r := tokenize_and_weight sw R) hjc h0
    simpa [← hc] using this

/-- C1 witness: the decomposition instantiated at a concrete pair. -/
theorem score_decomposition_witness :
    1 ≤ totalJob [] "python java" ∧
    (score_resume_against_job [] "python" "python java").1 =
      ((((score_resume_against_job [] "python" "python java").2.map
          Prod.snd).sum : Nat) : ℚ) /
        ((totalJob [] "python java" : Nat) : ℚ) :=
  (score_decomposition [] "python" "python java" (by decide)).2

/-- C2: for every pair of input texts the returned score lies between 0
and 1: each per-token contribution is clamped by `min` to the job count,
so the overlap never exceeds the total job count. -/
theorem score_bounds (sw : List String) (R J : String) :
    0 ≤ (score_resume_against_job sw R J).1 ∧
      (score_resume_against_job sw R J).1 ≤ 1 := by
  by_cases hj : tokenize_and_weight sw J = []
  · simp [score_resume_against_job, hj]
  · rw [score_eq hj]
    have htj : (0 : ℚ) < ((totalJob sw J : Nat) : ℚ) :=
      Nat.cast_pos.mpr (totalJob_pos hj)
    constructor
    · exact div_nonneg (Nat.cast_nonneg _) (le_of_lt htj)
    · rw [div_le_one htj]
      have h2 : ((matchedOf (tokenize_and_weight sw R)
          (tokenize_and_weight sw J)).map Prod.snd).sum ≤ totalJob sw J :=
        matched_sum_le _ _
      exact_mod_cast h2

/-- C3: for every resume text and every job text whose tokenization
yields zero tokens after filtering, the scorer returns exactly
`(0.0, empty)` — a defined result, not an error. -/
theorem score_empty_job (sw : List String) (R J : String)
    (hJ : tokensOf sw J = []) :
    score_resume_against_job sw R J = (0, []) := by
  have hj : tokenize_and_weight sw J = [] := by
    simp [tokenize_and_weight, hJ, countTokens]
  simp [score_resume_against_job, hj]

/-- C3 witness: scoring any resume against the empty job text. -/
theorem score_empty_job_witness :
    score_resume_against_job [] "python developer" "" = (0, []) :=
  score_empty_job [] "python developer" "" (by decide)

/-- C4 counterexample: with an empty stopword set, the tokens `needed`
and `required` of the job text are not filtered, so the job profile has
total count 6 (not 4) and the score is not 0.5. -/
theorem end_to_end_example_false :
    totalJob [] "Python developer needed. Python experience required." ≠ 4 ∧
    (score_resume_against_job []
        "Experienced Python engineer, 5 years Python."
        "Python developer needed. Python experience required.").1 ≠ 1 / 2 := by
  refine ⟨by decide, ?_⟩
  rw [score_eq (by decide)]
  have hm : matchedOf
      (tokenize_and_weight [] "Experienced Python engineer, 5 years Python.")
      (tokenize_and_weight []
        "Python developer needed. Python experience required.") =
      [("python", 2)] := by decide
  have ht : totalJob []
      "Python developer needed. Python experience required." = 6 := by decide
  rw [hm, ht]
  norm_num

/-- C4 amended: with an empty stopword set, scoring the resume text
against the job text yields job profile
`python:2, developer:1, needed:1, experience:1, required:1` with
`totalJob = 6`, resume profile
`experienced:1, python:2, engineer:1, years:1`, overlap 2, score
`2/6 = 1/3`, and matched `python:2`. -/
theorem end_to_end_example_actual :
    tokenize_and_weight []
        "Python developer needed. Python experience required." =
      [("python", 2), ("developer", 1), ("needed", 1), ("experience", 1),
        ("required", 1)] ∧
    totalJob [] "Python developer needed. Python experience required." = 6 ∧
    tokenize_and_weight [] "Experienced Python engineer, 5 years Python." =
      [("experienced", 1), ("python", 2), ("engineer", 1), ("years", 1)] ∧
    score_resume_against_job []
        "Experienced Python engineer, 5 years Python."
        "Python developer needed. Python experience required." =
      (1 / 3, [("python", 2)]) := by
  refine ⟨by decide, by decide, by decide, ?_⟩
  rw [score_eq (by decide)]
  have hm : matchedOf
      (tokenize_and_weight [] "Experienced Python engineer, 5 years Python.")
      (tokenize_and_weight []
        "Python developer needed. Python experience required.") =
      [("python", 2)] := by decide
  have ht : totalJob []
      "Python developer needed. Python experience required." = 6 := by decide
  rw [hm, ht, Prod.mk.injEq]
  refine ⟨?_, rfl⟩
  norm_num

/-- C5 counterexample: under the `docx` tag a parse failure is not
caught — `extract_text_from_docx` has no exception handler, so the
exception raised by `docx.Document` on a corrupt file propagates out of
`extract_text` to the caller. -/
theorem extract_docx_error_propagates :
    extract_text (RawDoc.mk (Except.ok none) (Except.error "BadZipFile") "")
      "docx" = Except.error "BadZipFile" := by
  rfl

/-- C5 amended: extraction never propagates an exception for the `pdf`,
`doc` and `txt` tags and for unrecognized tags (pdf parse failures are
caught and converted to the empty string, `doc`/`txt` use permissive
decoding that never fails, unrecognized tags yield the empty string);
only under the `docx` tag does a parse failure propagate to the caller. -/
theorem extract_total_except_docx :
    (∀ (d : RawDoc) (ext : String), ext ≠ "docx" →
      ∃ s, extract_text d ext = Except.ok s) ∧
    (∀ (d : RawDoc) (ext : String),
      ext ≠ "pdf" → ext ≠ "docx" → ext ≠ "doc" → ext ≠ "txt" →
      extract_text d ext = Except.ok "") ∧
    (∀ (d : RawDoc) (e : String), d.pdfParse = Except.error e →
      extract_text d "pdf" = Except.ok "") := by
  refine ⟨?_, ?_, ?_⟩
  · intro d ext hext
    unfold extract_text
    by_cases h1 : ext = "pdf"
    · rw [if_pos h1]
      exact ⟨_, rfl⟩
    · rw [if_neg h1]
      by_cases h2 : ext = "docx" ∨ ext = "doc"
      · rw [if_pos h2]
        have hdoc : ext = "doc" := h2.resolve_left hext
        rw [if_pos hdoc]
        exact ⟨_, rfl⟩
      · rw [if_neg h2]
        by_cases h3 : ext = "txt"
        · rw [if_pos h3]
          exact ⟨_, rfl⟩
        · rw [if_neg h3]
          exact ⟨_, rfl⟩
  · intro d ext h1 h2 h3 h4
    unfold extract_text
    rw [if_neg h1, if_neg (by tauto), if_neg h4]
  · intro d e he
    unfold extract_text
    rw [if_pos rfl]
    unfold extract_text_from_pdf
    rw [he]

/-- C5 witness: the amended statement at concrete documents — an
unrecognized tag yields the empty string and a failing pdf parse is
converted to the empty string. -/
theorem extract_total_except_docx_witness :
    extract_text (RawDoc.mk (Except.ok (some "x")) (Except.ok []) "hello")
      "rtf" = Except.ok "" ∧
    extract_text (RawDoc.mk (Except.error "bad xref") (Except.ok []) "")
      "pdf" = Except.ok "" :=
  ⟨extract_total_except_docx.2.1
      (RawDoc.mk (Except.ok (some "x")) (Except.ok []) "hello") "rtf"
      (by decide) (by decide) (by decide) (by decide),
    extract_total_except_docx.2.2
      (RawDoc.mk (Except.error "bad xref") (Except.ok []) "")
      "bad xref" rfl⟩

/-- C6: every key of a profile returned by `tokenize_and_weight` is
non-empty, longer than one character, made only of characters from the
allowed class (lowercase letters, digits, hyphen, plus, hash), entirely
lowercase (fixed by `Char.toLower`), and not a stopword; every count is
positive. -/
theorem profile_key_invariants (sw : List String) (text : String)
    (top_n : Option Int) (p : String × Nat)
    (hp : p ∈ tokenize_and_weight sw text top_n) :
    p.1 ≠ "" ∧ 1 < p.1.length ∧
      (∀ c ∈ p.1.data, isKeptChar c = true) ∧
      (∀ c ∈ p.1.data, c.toLower = c) ∧
      p.1 ∉ sw ∧ 1 ≤ p.2 := by
  obtain ⟨htok, hpos⟩ := mem_countTokens (mem_tokenize hp)
  obtain ⟨⟨w, hw, hweq⟩, hnsw, hlen⟩ := tokensOf_spec htok
  have hchars : ∀ c ∈ w, isKeptChar c = true := by
    refine splitAux_chars (P := fun c => isKeptChar c = true) _ [] ?_ ?_ w hw
    · intro c hcmem hns
      rcases mem_normalize hcmem with h | h
      · exact h
      · rw [h] at hns
        exact absurd hns (by simp)
    · intro c hc
      exact absurd hc (List.not_mem_nil c)
  have hdata : p.1.data = w := by rw [hweq]
  refine ⟨?_, hlen, ?_, ?_, hnsw, hpos⟩
  · intro h
    rw [h] at hlen
    exact absurd hlen (by decide)
  · intro c hc
    exact hchars c (hdata ▸ hc)
  · intro c hc
    exact kept_toLower (hchars c (hdata ▸ hc))

/-- C6 witness: the invariants instantiated at a concrete profile entry
(the token `c++` with count 1). -/
theorem profile_key_invariants_witness :
    ("c++" : String) ≠ "" ∧ 1 < ("c++" : String).length ∧
      ("c++" : String) ∉ ["the"] ∧ 1 ≤ 1 := by
  have h := profile_key_invariants ["the"] "C++ and Python" none ("c++", 1)
    (by decide)
  exact ⟨h.1, h.2.1, h.2.2.2.2.1, h.2.2.2.2.2⟩

/-- C7: when the job profile is non-empty and every job-profile token
appears in the resume profile with at least the job count, the score is
exactly 1. -/
theorem full_coverage_score_one (sw : List String) (R J : String)
    (hj : tokenize_and_weight sw J ≠ [])
    (hcov : ∀ p ∈ tokenize_and_weight sw J,
      p.2 ≤ lookup (tokenize_and_weight sw R) p.1) :
    (score_resume_against_job sw R J).1 = 1 := by
  rw [score_eq hj]
  have hpos : ∀ p ∈ tokenize_and_weight sw J, 1 ≤ p.2 :=
    fun p hp => (mem_countTokens (mem_tokenize hp)).2
  show ((((matchedOf _ _).map Prod.snd).sum : Nat) : ℚ) / _ = 1
  rw [matched_sum_full _ _ hpos hcov]
  have htj : ((totalJob sw J : Nat) : ℚ) ≠ 0 :=
    ne_of_gt (Nat.cast_pos.mpr (totalJob_pos hj))
  exact div_self htj

/-- C7 witness: full coverage at a concrete pair gives score exactly 1. -/
theorem full_coverage_score_one_witness :
    (score_resume_against_job [] "python java" "python").1 = 1 :=
  full_coverage_score_one [] "python java" "python" (by decide) (by decide)

/-- C8 counterexample: `top_n` equal to 0 is supplied but falsy in
Python, so `if top_n:` skips the truncation and the full two-entry
profile is returned, which does not have at most 0 entries. -/
theorem topn_zero_not_truncated :
    tokenize_and_weight [] "python java" (some 0) =
      [("python", 1), ("java", 1)] ∧
    ¬ ((tokenize_and_weight [] "python java" (some 0)).length ≤
        (0 : Int).toNat) := by
  refine ⟨by decide, by decide⟩

/-- C8 amended: whenever a nonzero `top_n` is supplied, the returned
profile is the first `top_n.toNat` entries of the stable count-descending
sort of the full profile — hence it has at most `top_n.toNat` entries,
each entry is an entry of the full profile, every excluded token has a
count at most that of every included token, and ties keep their
first-encountered order (the sort preserves the relative order of
equal-count entries); when `top_n` is not supplied, or is the falsy value
0, the full untruncated profile is returned. -/
theorem topn_truncation (sw : List String) (text : String) (n : Int)
    (hn : n ≠ 0) :
    tokenize_and_weight sw text (some n) =
      (sortByCountDesc (countTokens (tokensOf sw text))).take n.toNat ∧
    (tokenize_and_weight sw text (some n)).length ≤ n.toNat ∧
    (∀ p ∈ tokenize_and_weight sw text (some n),
      p ∈ tokenize_and_weight sw text none) ∧
    (∀ p ∈ tokenize_and_weight sw text (some n),
      ∀ q ∈ tokenize_and_weight sw text none,
        q.1 ∉ (tokenize_and_weight sw text (some n)).map Prod.fst →
          q.2 ≤ p.2) ∧
    (∀ c : Nat,
      (sortByCountDesc (countTokens (tokensOf sw text))).filter
          (fun q => q.2 == c) =
        (countTokens (tokensOf sw text)).filter (fun q => q.2 == c)) ∧
    tokenize_and_weight sw text (some 0) = tokenize_and_weight sw text none := by
  have heq : tokenize_and_weight sw text (some n) =
      (sortByCountDesc (countTokens (tokensOf sw text))).take n.toNat := by
    simp only [tokenize_and_weight, if_neg hn]
  refine ⟨heq, ?_, ?_, ?_, fun c => sortByCountDesc_filter c _, ?_⟩
  · rw [heq]
    exact List.length_take_le _ _
  · intro p hp
    rw [heq] at hp
    exact (sortByCountDesc_perm _).mem_iff.mp (List.mem_of_mem_take hp)
  · intro p hp q hq hnot
    have hsplit :
        (sortByCountDesc (countTokens (tokensOf sw text))).take n.toNat ++
          (sortByCountDesc (countTokens (tokensOf sw text))).drop n.toNat =
        sortByCountDesc (countTokens (tokensOf sw text)) :=
      List.take_append_drop _ _
    have hpw := sortByCountDesc_pairwise (countTokens (tokensOf sw text))
    rw [← hsplit] at hpw
    obtain ⟨-, -, hcross⟩ := List.pairwise_append.mp hpw
    have hqs : q ∈ sortByCountDesc (countTokens (tokensOf sw text)) :=
      (sortByCountDesc_perm _).mem_iff.mpr hq
    rw [← hsplit, List.mem_append] at hqs
    rcases hqs with htake | hdrop
    · exact absurd (heq ▸ List.mem_map_of_mem Prod.fst htake) hnot
    · exact hcross p (heq ▸ hp) q hdrop
  · simp [tokenize_and_weight]

/-- C8 witness: the truncation bound at a concrete profile and a
supplied positive `top_n`. -/
theorem topn_truncation_witness :
    (tokenize_and_weight [] "aa bb aa" (some 1)).length ≤ (1 : Int).toNat :=
  (topn_truncation [] "aa bb aa" 1 (by decide)).2.1

/-- C9: the score is not symmetric — for the resume text
`python java c++ rust golang` (much longer than the job text `python`)
the two orders give scores 1 and 1/5, because normalization divides by
the total count of the job profile only.  This concrete pair
instantiates the existential of the claim. -/
theorem score_asymmetric :
    (score_resume_against_job [] "python java c++ rust golang" "python").1 ≠
      (score_resume_against_job [] "python"
        "python java c++ rust golang").1 := by
  rw [score_eq (by decide), score_eq (by decide)]
  have h1 : matchedOf
      (tokenize_and_weight [] "python java c++ rust golang")
      (tokenize_and_weight [] "python") = [("python", 1)] := by decide
  have h2 : totalJob [] "python" = 1 := by decide
  have h3 : matchedOf (tokenize_and_weight [] "python")
      (tokenize_and_weight [] "python java c++ rust golang") =
      [("python", 1)] := by decide
  have h4 : totalJob [] "python java c++ rust golang" = 5 := by decide
  rw [h1, h2, h3, h4]
  norm_num

/-- C10: the score is 0 exactly when the matched mapping is empty, and
strictly positive exactly when at least one job-profile token occurs in
the resume profile. -/
theorem score_zero_iff_no_match (sw : List String) (R J : String) :
    ((score_resume_against_job sw R J).1 = 0 ↔
      (score_resume_against_job sw R J).2 = []) ∧
    (0 < (score_resume_against_job sw R J).1 ↔
      ∃ p ∈ tokenize_and_weight sw J,
        0 < lookup (tokenize_and_weight sw R) p.1) := by
  by_cases hj : tokenize_and_weight sw J = []
  · constructor
    · simp [score_resume_against_job, hj]
    · simp [score_resume_against_job, hj]
  · rw [score_eq hj]
    have hpos : ∀ p ∈ tokenize_and_weight sw J, 1 ≤ p.2 :=
      fun p hp => (mem_countTokens (mem_tokenize hp)).2
    have hposM : ∀ x ∈ (matchedOf (tokenize_and_weight sw R)
        (tokenize_and_weight sw J)).map Prod.snd, 1 ≤ x := by
      intro x hx
      rw [List.mem_map] at hx
      obtain ⟨q, hq, rfl⟩ := hx
      obtain ⟨p, hp, h0, hshape⟩ := mem_matchedOf hq
      rw [hshape]
      exact le_min h0 (hpos p hp)
    have hsum0 : ((matchedOf (tokenize_and_weight sw R)
          (tokenize_and_weight sw J)).map Prod.snd).sum = 0 ↔
        matchedOf (tokenize_and_weight sw R) (tokenize_and_weight sw J) = [] := by
      rw [natSum_eq_zero_iff hposM, List.map_eq_nil_iff]
    have hne : ((totalJob sw J : Nat) : ℚ) ≠ 0 :=
      ne_of_gt (Nat.cast_pos.mpr (totalJob_pos hj))
    constructor
    · rw [div_eq_zero_iff]
      constructor
      · rintro (h | h)
        · exact hsum0.mp (by exact_mod_cast h)
        · exact absurd h hne
      · intro h
        exact Or.inl (by rw [show matchedOf (tokenize_and_weight sw R)
            (tokenize_and_weight sw J) = [] from h]; simp)
    · constructor
      · intro h
        by_contra hno
        push_neg at hno
        have hm : matchedOf (tokenize_and_weight sw R)
            (tokenize_and_weight sw J) = [] :=
          matchedOf_eq_nil_iff.mpr (fun p hp => by
            have := hno p hp
            omega)
        rw [hm] at h
        simp at h
      · rintro ⟨p, hp, h0⟩
        have hmem := matchedOf_mem_of (r := tokenize_and_weight sw R) hp h0
        refine div_pos ?_ (Nat.cast_pos.mpr (totalJob_pos hj))
        have hnil : matchedOf (tokenize_and_weight sw R)
            (tokenize_and_weight sw J) ≠ [] := by
          intro hnil
          rw [hnil] at hmem
          exact absurd hmem (List.not_mem_nil _)
        have hsum : 0 < ((matchedOf (tokenize_and_weight sw R)
            (tokenize_and_weight sw J)).map Prod.snd).sum :=
          Nat.pos_of_ne_zero (fun hz => hnil (hsum0.mp hz))
        exact_mod_cast hsum

end App
